import Mathlib

/-!
Verification of hugo-multiversion (main.go): a shallow embedding of the
version resolver (`parseBranchesFlag`), the content materializer
(`fetchRepository`, `copyDir`, `copyFile`) and the `run` driver, together
with theorems about their behaviour.

Modelling conventions:
* Go strings are modelled as `List Char`; file contents as `List Nat` (bytes).
* Go maps (`map[string]string`, directory listings) are modelled as
  association lists with last-write-wins insertion (`insertA`) and
  first-match lookup (`lookupA`).
* The filesystem subtree rooted at a path is an `FSNode`; an absent path is
  `Option.none`.  `os.MkdirAll`, `os.Create`, `ioutil.ReadDir` failures are
  reflected as `CopyErr` values; the state component returned alongside the
  error models the on-disk effects that happened before the failing call
  (Go's `copyDir` creates the destination directory before reading the
  source, so a failure can leave a partially built destination).
* The process umask is taken to be 0, so `os.MkdirAll(dst, mode)` creates
  `dst` with exactly `mode`, and leaves the mode of an already existing
  directory unchanged, as the Go primitives do.
* The external `git` binary is an oracle (`Sys`): `gitOk` says whether
  `git clone -b <branch> ...` exits 0, and `content` gives the content
  subtree of the clone.  `fetchRepository` itself is embedded as the
  argument list it passes to `runCommand`.
* Go map iteration order is unspecified; the model fixes insertion order.
-/

set_option autoImplicit false

namespace HugoMV

/-- Go strings (paths, branch names, version names) as character lists. -/
abbrev Name := List Char

/-! ## Association lists: the model of Go maps and directory listings -/

/-- First-match lookup in an association list keyed by `Name`. -/
def lookupA {β : Type} : List (Name × β) → Name → Option β
  | [], _ => none
  | (k, v) :: rest, n => if k = n then some v else lookupA rest n

/-- Last-write-wins insertion: `out[k] = v` on a Go map. Replaces the first
entry with key `n` if present, otherwise appends. -/
def insertA {β : Type} : List (Name × β) → Name → β → List (Name × β)
  | [], n, x => [(n, x)]
  | (k, v) :: rest, n, x =>
    if k = n then (n, x) :: rest else (k, v) :: insertA rest n x

/-! ## Version resolver: `parseBranchesFlag` (main.go lines 83-95) -/

/-- Character-level embedding of Go `strings.Split(s, sep)` for a
single-character separator: `splitChar sep s` never returns `[]`, returns
`[s]` when `sep` does not occur in `s`, and otherwise splits at every
occurrence of `sep`. -/
def splitChar (sep : Char) : List Char → List (List Char)
  | [] => [[]]
  | c :: rest =>
    if c = sep then [] :: splitChar sep rest
    else
      match splitChar sep rest with
      | [] => [[c]]
      | h :: t => (c :: h) :: t

/-- One step of the loop body of `parseBranchesFlag` (main.go lines 86-92):
split the token on `=`; a single part means "no `=` sign", in which case the
whole token is both version name and branch name; otherwise the first part
is the version name and the remaining parts are rejoined with the empty
separator (`strings.Join(splitStr[1:], "")`). -/
def resolveToken (b : Name) : Name × Name :=
  match splitChar '=' b with
  | [] => (b, b)
  | [_] => (b, b)
  | s0 :: rest => (s0, rest.flatten)

/-- `parseBranchesFlag` (main.go lines 83-95): fold the tokens into a map,
later tokens overwriting earlier ones with the same version name. -/
def parseBranchesFlag (branches : List Name) : List (Name × Name) :=
  branches.foldl (fun out b => insertA out (resolveToken b).1 (resolveToken b).2) []

/-- The reserved version name `"latest"`. -/
def latestKey : Name := ['l', 'a', 't', 'e', 's', 't']

/-- The version map as built by `run` (main.go lines 125-128): parse the
`--branches` tokens, then, when `--latest-branch` is non-empty, insert it
under the key `"latest"`. -/
def mkVersionMap (latestBranch : Name) (branches : List Name) : List (Name × Name) :=
  let versionMap := parseBranchesFlag branches
  if latestBranch = [] then versionMap else insertA versionMap latestKey latestBranch

/-! ## Fetch step: `fetchRepository` (main.go lines 99-106) -/

/-- `filepath.Join(tmpdir, "repo", version)` for clean components. -/
def cloneDirOf (tmpdir version : Name) : Name :=
  tmpdir ++ ('/' :: ['r', 'e', 'p', 'o']) ++ ('/' :: version)

/-- `fetchRepository` (main.go lines 99-106): returns the clone directory
and the argument vector passed to the `git` binary via `runCommand`. -/
def fetchRepository (tmpdir repoURL version branchName : Name) :
    Name × List Name :=
  let cloneDir := cloneDirOf tmpdir version
  (cloneDir, [['c', 'l', 'o', 'n', 'e'], ['-', 'b'], branchName, repoURL, cloneDir])

/-- Whether a literal command-line argument requests the flag `f`, either
bare (`--depth`) or in `--depth=N` form. -/
def argIsFlag (f a : Name) : Bool := a.takeWhile (fun c => c ≠ '=') = f

/-- A `git clone` argument vector performs a shallow single-branch checkout
iff it requests both `--depth` and `--single-branch` (git clones the full
repository, all branches included, when these are absent; `-b` only selects
the branch to check out). -/
def requestsShallowSingleBranch (args : List Name) : Bool :=
  (args.any (argIsFlag ['-', '-', 'd', 'e', 'p', 't', 'h'])) &&
    (args.any (argIsFlag ['-', '-', 's', 'i', 'n', 'g', 'l', 'e', '-', 'b', 'r', 'a', 'n', 'c', 'h']))

/-! ## Filesystem model and the recursive copy (main.go lines 155-212) -/

/-- A filesystem subtree: a regular file (bytes + permission bits) or a
directory (permission bits + named children). -/
inductive FSNode : Type where
  | file (content : List Nat) (mode : Nat)
  | dir (mode : Nat) (children : List (Name × FSNode))
deriving Repr

/-- Failures of the copy step, in the order the corresponding Go calls are
made inside `copyDir`/`copyFile`. -/
inductive CopyErr : Type where
  /-- `os.Stat(src)` failed: the source path does not exist. -/
  | statMissing
  /-- `os.MkdirAll(dst, mode)` failed: `dst` exists and is not a directory. -/
  | mkdirNotDir
  /-- `ioutil.ReadDir(src)` failed: `src` is not a directory. -/
  | readDirNotDir
  /-- `os.Create(dst)` failed: `dst` exists and is a directory. -/
  | createIsDir
deriving DecidableEq, Repr

/-- `copyFile` (main.go lines 155-178) for a source file with the given
bytes and mode: `os.Create` truncates an existing destination file and
fails on an existing destination directory; on success the destination is
the source bytes with the source mode (`os.Chmod`). The first component is
the destination state afterwards, the second the error if any. -/
def copyFile (content : List Nat) (mode : Nat) :
    Option FSNode → FSNode × Option CopyErr
  | some (FSNode.dir dm dcs) => (FSNode.dir dm dcs, some CopyErr.createIsDir)
  | _ => (FSNode.file content mode, none)

mutual

/-- `copyDir` (main.go lines 181-212) for an existing source path `src` and
a destination path in state `dst` (`none` = absent). Mirrors the Go body:
`os.MkdirAll(dst, srcinfo.Mode())` first (creating the destination
directory with the source mode when absent, leaving an existing directory
untouched, failing on an existing non-directory), then `ioutil.ReadDir(src)`
(failing when `src` is not a directory — note the destination directory has
already been created at that point), then the loop over the children.
Returns the destination state afterwards and the error if any. -/
def copyDir (src : FSNode) (dst : Option FSNode) : FSNode × Option CopyErr :=
  match src, dst with
  | FSNode.file _ m, none => (FSNode.dir m [], some CopyErr.readDirNotDir)
  | FSNode.file _ _, some (FSNode.file c fm) =>
    (FSNode.file c fm, some CopyErr.mkdirNotDir)
  | FSNode.file _ _, some (FSNode.dir dm dcs) =>
    (FSNode.dir dm dcs, some CopyErr.readDirNotDir)
  | FSNode.dir _ _, some (FSNode.file c fm) =>
    (FSNode.file c fm, some CopyErr.mkdirNotDir)
  | FSNode.dir m cs, none =>
    let r := copyChildren cs []
    (FSNode.dir m r.1, r.2)
  | FSNode.dir _ cs, some (FSNode.dir dm dcs) =>
    let r := copyChildren cs dcs
    (FSNode.dir dm r.1, r.2)
termination_by sizeOf src

/-- The loop of `copyDir` (main.go lines 197-210): for each source child in
listing order, recurse via `copyDir` on directories and `copyFile`
otherwise, returning on the first error. `acc` is the current state of the
destination directory's children. -/
def copyChildren (l acc : List (Name × FSNode)) :
    List (Name × FSNode) × Option CopyErr :=
  match l with
  | [] => (acc, none)
  | (n, FSNode.file c fm) :: rest =>
    let r := copyFile c fm (lookupA acc n)
    let acc2 := insertA acc n r.1
    match r.2 with
    | some e => (acc2, some e)
    | none => copyChildren rest acc2
  | (n, FSNode.dir m cs) :: rest =>
    let r := copyDir (FSNode.dir m cs) (lookupA acc n)
    let acc2 := insertA acc n r.1
    match r.2 with
    | some e => (acc2, some e)
    | none => copyChildren rest acc2
termination_by sizeOf l

end

/-- The copy of one directory entry: `copyDir` for a directory child and
`copyFile` for any other child, exactly as the branch on `fd.IsDir()` in
the loop of `copyDir` does. -/
def copyEntry (child : FSNode) (d : Option FSNode) : FSNode × Option CopyErr :=
  match child with
  | FSNode.file c fm => copyFile c fm d
  | FSNode.dir m cs => copyDir (FSNode.dir m cs) d

/-- Top-level entry of the copy step as `run` invokes it: `os.Stat(src)`
fails when the source content directory is missing, leaving the
destination untouched; otherwise proceed as `copyDir`. -/
def copyDirTop (src : Option FSNode) (dst : Option FSNode) :
    Option FSNode × Option CopyErr :=
  match src with
  | none => (dst, some CopyErr.statMissing)
  | some s =>
    let r := copyDir s dst
    (some r.1, r.2)

mutual

/-- Well-formedness of a source tree as the real filesystem guarantees it:
the children names at every directory level are distinct. -/
def goodTree (t : FSNode) : Bool :=
  match t with
  | FSNode.file _ _ => true
  | FSNode.dir _ cs => decide ((cs.map Prod.fst).Nodup) && goodForest cs
termination_by sizeOf t

/-- `goodTree` for every tree in a children list. -/
def goodForest (l : List (Name × FSNode)) : Bool :=
  match l with
  | [] => true
  | (_, t) :: rest => goodTree t && goodForest rest
termination_by sizeOf l

end

/-- Path lookup in a tree: `lookupPath t p` is the node reached from `t`
by following the child names in `p`, if any. -/
def lookupPath : FSNode → List Name → Option FSNode
  | t, [] => some t
  | FSNode.file _ _, _ :: _ => none
  | FSNode.dir _ cs, n :: rest =>
    match lookupA cs n with
    | none => none
    | some c => lookupPath c rest

/-! ## The `run` driver (main.go lines 108-152) -/

/-- The external world: whether `git clone -b <branch> <repo-url> <dir>`
exits 0 for a given branch, and, when it does, the state of the
`<clone>/<repo-content-dir>` subtree of the resulting clone (`none` when
the branch has no such directory). -/
structure Sys : Type where
  gitOk : Name → Bool
  content : Name → Option FSNode

/-- Observable operations of one run, in order. -/
inductive Event : Type where
  | fetch (version branch : Name)
  | copy (version : Name)
deriving DecidableEq, Repr

/-- Errors `run` can return. -/
inductive RunErr : Type where
  | fetchFailed
  | copyFailed (e : CopyErr)
deriving DecidableEq, Repr

/-- The destination state of `<output-dir>/<version>` after a copy attempt
returning `r1`, merged into the output directory's children. -/
def applyCopyResult (out : List (Name × FSNode)) (vers : Name) (r1 : Option FSNode) :
    List (Name × FSNode) :=
  match r1 with
  | some x => insertA out vers x
  | none => out

/-- The loop over the version map (main.go lines 129-148). The output
directory's children are threaded through as `out`; the version's
subdirectory `<output-dir>/<version>` is the child named by the version.
Each iteration attempts the fetch, returning its error immediately on
failure, then the copy, returning its error immediately on failure. -/
def runLoop (sys : Sys) :
    List (Name × Name) → List (Name × FSNode) → List Event →
      List (Name × FSNode) × List Event × Option RunErr
  | [], out, tr => (out, tr, none)
  | (vers, branch) :: rest, out, tr =>
    if sys.gitOk branch then
      let r := copyDirTop (sys.content branch) (lookupA out vers)
      let out2 := applyCopyResult out vers r.1
      let tr2 := tr ++ [Event.fetch vers branch, Event.copy vers]
      match r.2 with
      | some e => (out2, tr2, some (RunErr.copyFailed e))
      | none => runLoop sys rest out2 tr2
    else (out, tr ++ [Event.fetch vers branch], some RunErr.fetchFailed)

/-- The observable result of one `run`. -/
structure RunState : Type where
  /-- Children of the output directory; `none` when the directory does not
  exist. -/
  output : Option (List (Name × FSNode))
  /-- Whether the temporary workspace was created. -/
  tmpCreated : Bool
  /-- Whether the temporary workspace was removed again before returning. -/
  tmpRemoved : Bool
  /-- The fetch/copy operations performed, in order. -/
  trace : List Event
  /-- `none` models a `nil` return (exit status 0), `some e` a non-`nil`
  error (main exits with status 1). -/
  err : Option RunErr
deriving Repr

/-- `run` (main.go lines 108-152). With nothing to do it returns `nil` at
once; otherwise it creates the temporary workspace, defers its cleanup
(skipped when `--debug` is set), creates the output directory via
`os.MkdirAll` (a no-op when it exists), resolves the version map and runs
the fetch/copy loop. The deferred cleanup runs on every return path. -/
def run (sys : Sys) (latestBranch : Name) (branches : List Name)
    (debug : Bool) (out0 : Option (List (Name × FSNode))) : RunState :=
  if latestBranch = [] ∧ branches = [] then
    { output := out0, tmpCreated := false, tmpRemoved := false,
      trace := [], err := none }
  else
    let versionMap := mkVersionMap latestBranch branches
    let r := runLoop sys versionMap (out0.getD []) []
    { output := some r.1, tmpCreated := true, tmpRemoved := !debug,
      trace := r.2.1, err := r.2.2 }

/-! ## Basic lemmas -/

theorem lookupA_insertA_self {β : Type} (l : List (Name × β)) (n : Name) (x : β) :
    lookupA (insertA l n x) n = some x := by
  induction l with
  | nil => simp [insertA, lookupA]
  | cons p rest ih =>
    obtain ⟨k, v⟩ := p
    by_cases h : k = n
    · simp [insertA, lookupA, h]
    · simp [insertA, lookupA, h, ih]

theorem lookupA_insertA_ne {β : Type} (l : List (Name × β)) (n m : Name) (x : β)
    (h : m ≠ n) : lookupA (insertA l n x) m = lookupA l m := by
  have hnm : ¬n = m := fun hh => h hh.symm
  induction l with
  | nil => simp [insertA, lookupA, hnm]
  | cons p rest ih =>
    obtain ⟨k, v⟩ := p
    by_cases hk : k = n
    · subst hk
      simp [insertA, lookupA, hnm]
    · simp only [insertA, if_neg hk, lookupA]
      rw [ih]

theorem insertA_of_lookupA_none {β : Type} (l : List (Name × β)) (n : Name) (x : β)
    (h : lookupA l n = none) : insertA l n x = l ++ [(n, x)] := by
  induction l with
  | nil => simp [insertA]
  | cons p rest ih =>
    obtain ⟨k, v⟩ := p
    by_cases hk : k = n
    · rw [lookupA, if_pos hk] at h
      exact Option.noConfusion h
    · rw [lookupA, if_neg hk] at h
      simp only [insertA, if_neg hk, ih h, List.cons_append]

theorem lookupA_append_of_none {β : Type} (l l2 : List (Name × β)) (n : Name)
    (h : lookupA l n = none) : lookupA (l ++ l2) n = lookupA l2 n := by
  induction l with
  | nil => simp
  | cons p rest ih =>
    obtain ⟨k, v⟩ := p
    by_cases hk : k = n
    · rw [lookupA, if_pos hk] at h
      exact Option.noConfusion h
    · rw [lookupA, if_neg hk] at h
      simp only [List.cons_append, lookupA, if_neg hk]
      exact ih h

theorem lookupA_none_of_not_mem {β : Type} (l : List (Name × β)) (n : Name)
    (h : n ∉ l.map Prod.fst) : lookupA l n = none := by
  induction l with
  | nil => rfl
  | cons p rest ih =>
    obtain ⟨k, v⟩ := p
    rw [List.map_cons, List.mem_cons] at h
    push_neg at h
    have hk : ¬k = n := fun hh => h.1 hh.symm
    rw [lookupA, if_neg hk]
    exact ih h.2

theorem mem_keys_of_lookupA_some {β : Type} (l : List (Name × β)) (n : Name) {x : β}
    (h : lookupA l n = some x) : n ∈ l.map Prod.fst := by
  induction l with
  | nil => exact Option.noConfusion h
  | cons p rest ih =>
    obtain ⟨k, v⟩ := p
    rw [List.map_cons, List.mem_cons]
    by_cases hk : k = n
    · exact Or.inl hk.symm
    · rw [lookupA, if_neg hk] at h
      exact Or.inr (ih h)

theorem splitChar_ne_nil (sep : Char) (s : List Char) : splitChar sep s ≠ [] := by
  induction s with
  | nil => simp [splitChar]
  | cons c rest ih =>
    by_cases h : c = sep
    · simp [splitChar, h]
    · cases hs : splitChar sep rest with
      | nil => exact absurd hs ih
      | cons hd tl => simp [splitChar, h, hs]

theorem splitChar_of_not_mem (sep : Char) (s : List Char) (h : sep ∉ s) :
    splitChar sep s = [s] := by
  induction s with
  | nil => rfl
  | cons c rest ih =>
    simp at h
    have hc : ¬(c = sep) := fun hh => h.1 hh.symm
    simp [splitChar, hc, ih h.2]

theorem splitChar_of_mem (sep : Char) (s : List Char) (h : sep ∈ s) :
    splitChar sep s =
      s.takeWhile (fun c => c ≠ sep) ::
        splitChar sep ((s.dropWhile (fun c => c ≠ sep)).tail) := by
  induction s with
  | nil => simp at h
  | cons c rest ih =>
    by_cases hc : c = sep
    · subst hc
      simp [splitChar, List.takeWhile, List.dropWhile]
    · have hr : sep ∈ rest := by
        rcases List.mem_cons.mp h with h1 | h1
        · exact absurd h1.symm hc
        · exact h1
      have := ih hr
      simp only [splitChar, if_neg hc, this]
      simp [List.takeWhile, List.dropWhile, hc]

theorem join_splitChar (sep : Char) (s : List Char) :
    (splitChar sep s).flatten = s.filter (fun c => c ≠ sep) := by
  induction s with
  | nil => simp [splitChar]
  | cons c rest ih =>
    by_cases hc : c = sep
    · subst hc
      simp [splitChar, List.filter, ih]
    · cases hs : splitChar sep rest with
      | nil => exact absurd hs (splitChar_ne_nil sep rest)
      | cons hd tl =>
        have h2 : hd ++ tl.flatten = rest.filter (fun c => c ≠ sep) := by
          have h3 := ih
          rw [hs] at h3
          simpa using h3
        simp only [splitChar, if_neg hc, hs]
        simp [List.filter_cons, hc, h2]

/-! ## Claims about the version resolver -/

/-- C1: for every token containing at least one `=`, resolving yields the
part before the first `=` as the version name, and the parts after the
first `=` rejoined with no separator — that is, everything after the first
`=` with every further `=` character dropped — as the branch name. In
particular `a=b` resolves to `(a, b)` and `a=b=c` to `(a, bc)`. -/
theorem claim1_resolveToken_multi (b : Name) (h : '=' ∈ b) :
    resolveToken b =
      (b.takeWhile (fun c => c ≠ '='),
        ((b.dropWhile (fun c => c ≠ '=')).tail).filter (fun c => c ≠ '=')) := by
  have hsplit := splitChar_of_mem '=' b h
  cases hs : splitChar '=' ((b.dropWhile (fun c => c ≠ '=')).tail) with
  | nil => exact absurd hs (splitChar_ne_nil _ _)
  | cons hd tl =>
    have hj : (hd :: tl).flatten =
        ((b.dropWhile (fun c => c ≠ '=')).tail).filter (fun c => c ≠ '=') := by
      have h4 := join_splitChar '=' ((b.dropWhile (fun c => c ≠ '=')).tail)
      rw [hs] at h4
      exact h4
    rw [hs] at hsplit
    simp only [resolveToken, hsplit]
    rw [hj]

theorem claim1_witness :
    ('=' ∈ (['a', '=', 'b'] : Name)) ∧
      resolveToken ['a', '=', 'b'] = (['a'], ['b']) ∧
      resolveToken ['a', '=', 'b', '=', 'c'] = (['a'], ['b', 'c']) := by
  refine ⟨by decide, ?_, ?_⟩
  · rw [claim1_resolveToken_multi ['a', '=', 'b'] (by decide)]
    decide
  · rw [claim1_resolveToken_multi ['a', '=', 'b', '=', 'c'] (by decide)]
    decide

/-- C5: a token with no `=` resolves to itself as both version name and
branch name, and resolving it into the map produces the corresponding
entry; resolution is total, so no error can be raised. -/
theorem claim5_resolveToken_plain (b : Name) (h : '=' ∉ b) :
    resolveToken b = (b, b) ∧ lookupA (parseBranchesFlag [b]) b = some b := by
  have hs := splitChar_of_not_mem '=' b h
  have h1 : resolveToken b = (b, b) := by
    simp only [resolveToken, hs]
  refine ⟨h1, ?_⟩
  simp [parseBranchesFlag, h1, insertA, lookupA]

theorem claim5_witness :
    ('=' ∉ (['v', '1'] : Name)) ∧ resolveToken ['v', '1'] = (['v', '1'], ['v', '1']) ∧
      lookupA (parseBranchesFlag [['v', '1']]) ['v', '1'] = some ['v', '1'] := by
  refine ⟨by decide, ?_⟩
  exact claim5_resolveToken_plain ['v', '1'] (by decide)

/-- C4: whenever the `--latest-branch` value is non-empty, the resolved
version map maps the key `"latest"` to that value, overwriting any entry a
`latest=...` token in `--branches` produced. -/
theorem claim4_latest_overwrites (latestBranch : Name) (branches : List Name)
    (h : latestBranch ≠ []) :
    lookupA (mkVersionMap latestBranch branches) latestKey = some latestBranch := by
  simp only [mkVersionMap, if_neg h]
  exact lookupA_insertA_self _ _ _

theorem claim4_witness :
    ((['m', 'a', 'i', 'n'] : Name) ≠ []) ∧
      lookupA (parseBranchesFlag [['l', 'a', 't', 'e', 's', 't', '=', 'x']]) latestKey =
        some ['x'] ∧
      lookupA (mkVersionMap ['m', 'a', 'i', 'n'] [['l', 'a', 't', 'e', 's', 't', '=', 'x']])
          latestKey =
        some ['m', 'a', 'i', 'n'] :=
  ⟨by decide, by decide,
    claim4_latest_overwrites ['m', 'a', 'i', 'n'] [['l', 'a', 't', 'e', 's', 't', '=', 'x']]
      (by decide)⟩

/-! ## Claims about the fetch step -/

/-- C2 fails on the code: `fetchRepository` runs plain
`git clone -b <branch> <url> <dir>`, which is not a shallow single-branch
checkout — neither `--depth` nor `--single-branch` is among the arguments
it builds, here evaluated at a concrete input. -/
theorem claim2_counterexample :
    requestsShallowSingleBranch (fetchRepository ['t'] ['u'] ['v'] ['b']).2 = false := by
  decide

/-- C2 (amended): for every (version, branch) pair the fetch step clones
the repository into `<workspace>/repo/<version>` with the named branch
checked out, via `git clone -b <branch> <url> <dir>`; the clone is a full
one — no shallow or single-branch flags are requested (provided the
caller-supplied strings are not themselves such flags). -/
theorem claim2_full_clone (tmpdir repoURL version branchName : Name)
    (hargs : ∀ a ∈ [branchName, repoURL, cloneDirOf tmpdir version],
      argIsFlag ['-', '-', 'd', 'e', 'p', 't', 'h'] a = false ∧
        argIsFlag ['-', '-', 's', 'i', 'n', 'g', 'l', 'e', '-', 'b', 'r', 'a', 'n', 'c', 'h'] a =
          false) :
    fetchRepository tmpdir repoURL version branchName =
      (cloneDirOf tmpdir version,
        [['c', 'l', 'o', 'n', 'e'], ['-', 'b'], branchName, repoURL,
          cloneDirOf tmpdir version]) ∧
    requestsShallowSingleBranch (fetchRepository tmpdir repoURL version branchName).2 =
      false := by
  have hb := hargs branchName (by simp)
  have hu := hargs repoURL (by simp)
  have hc := hargs (cloneDirOf tmpdir version) (by simp)
  refine ⟨rfl, ?_⟩
  simp only [fetchRepository, requestsShallowSingleBranch, List.any_cons, List.any_nil]
  simp only [argIsFlag] at hb hu hc ⊢
  simp at hb hu hc ⊢
  intro hdep
  exact ⟨hb.2, hu.2, hc.2⟩

theorem claim2_witness :
    fetchRepository ['t'] ['u'] ['v'] ['b'] =
      (cloneDirOf ['t'] ['v'],
        [['c', 'l', 'o', 'n', 'e'], ['-', 'b'], ['b'], ['u'], cloneDirOf ['t'] ['v']]) ∧
    requestsShallowSingleBranch (fetchRepository ['t'] ['u'] ['v'] ['b']).2 = false :=
  claim2_full_clone ['t'] ['u'] ['v'] ['b'] (by decide)

/-! ## Claims about the run driver: trivial control flow -/

/-- C9: whenever a run created the temporary workspace, the workspace is
removed before returning — on every return path — unless the debug flag is
set, in which case cleanup is skipped. -/
theorem claim9_cleanup (sys : Sys) (latestBranch : Name) (branches : List Name)
    (debug : Bool) (out0 : Option (List (Name × FSNode)))
    (h : (run sys latestBranch branches debug out0).tmpCreated = true) :
    (run sys latestBranch branches debug out0).tmpRemoved = !debug := by
  by_cases hc : latestBranch = [] ∧ branches = []
  · simp only [run, if_pos hc] at h
    exact Bool.noConfusion h
  · simp only [run, if_neg hc]

theorem claim9_witness :
    ((run ⟨fun _ => true, fun _ => none⟩ ['m'] [] true none).tmpCreated = true) ∧
      (run ⟨fun _ => true, fun _ => none⟩ ['m'] [] true none).tmpRemoved = !true :=
  ⟨by decide, claim9_cleanup ⟨fun _ => true, fun _ => none⟩ ['m'] [] true none (by decide)⟩

/-- C10: with an empty `--latest-branch` and an empty `--branches` list,
`run` returns `nil` immediately: no temporary workspace is created (hence
none removed), the output directory is left exactly as it was (in
particular it is not created when absent), and no fetch or copy operation
is performed. -/
theorem claim10_nothing_to_do (sys : Sys) (latestBranch : Name)
    (branches : List Name) (debug : Bool) (out0 : Option (List (Name × FSNode)))
    (h1 : latestBranch = []) (h2 : branches = []) :
    run sys latestBranch branches debug out0 =
      { output := out0, tmpCreated := false, tmpRemoved := false,
        trace := [], err := none } := by
  subst h1
  subst h2
  simp [run]

theorem claim10_witness :
    run ⟨fun _ => true, fun _ => none⟩ [] [] false none =
      { output := none, tmpCreated := false, tmpRemoved := false,
        trace := [], err := none } :=
  claim10_nothing_to_do ⟨fun _ => true, fun _ => none⟩ [] [] false none rfl rfl


/-! ## Lemmas about the run loop -/

theorem runLoop_cons_fetchFail (sys : Sys) (v b : Name) (rest : List (Name × Name))
    (out : List (Name × FSNode)) (tr : List Event) (hg : sys.gitOk b = false) :
    runLoop sys ((v, b) :: rest) out tr =
      (out, tr ++ [Event.fetch v b], some RunErr.fetchFailed) := by
  simp [runLoop, hg]

theorem runLoop_cons_copyFail (sys : Sys) (v b : Name) (rest : List (Name × Name))
    (out : List (Name × FSNode)) (tr : List Event) (e : CopyErr) (r1 : Option FSNode)
    (hg : sys.gitOk b = true)
    (hcd : copyDirTop (sys.content b) (lookupA out v) = (r1, some e)) :
    runLoop sys ((v, b) :: rest) out tr =
      (applyCopyResult out v r1,
        tr ++ [Event.fetch v b, Event.copy v], some (RunErr.copyFailed e)) := by
  simp only [runLoop, hg, if_true, hcd]

theorem runLoop_cons_ok (sys : Sys) (v b : Name) (rest : List (Name × Name))
    (out : List (Name × FSNode)) (tr : List Event) (r1 : Option FSNode)
    (hg : sys.gitOk b = true)
    (hcd : copyDirTop (sys.content b) (lookupA out v) = (r1, none)) :
    runLoop sys ((v, b) :: rest) out tr =
      runLoop sys rest (applyCopyResult out v r1)
        (tr ++ [Event.fetch v b, Event.copy v]) := by
  simp only [runLoop, hg, if_true, hcd]

theorem runLoop_trace_of_ok (sys : Sys) (entries : List (Name × Name)) :
    ∀ out tr out2 tr2, runLoop sys entries out tr = (out2, tr2, none) →
      tr2 = tr ++ entries.flatMap (fun p => [Event.fetch p.1 p.2, Event.copy p.1]) := by
  induction entries with
  | nil =>
    intro out tr out2 tr2 h
    simp only [runLoop, Prod.mk.injEq] at h
    simp [h.2.1.symm]
  | cons p rest ih =>
    obtain ⟨v, b⟩ := p
    intro out tr out2 tr2 h
    by_cases hg : sys.gitOk b
    · cases hcd : copyDirTop (sys.content b) (lookupA out v) with
      | mk r1 r2 =>
        cases r2 with
        | some e =>
          rw [runLoop_cons_copyFail sys v b rest out tr e r1 hg hcd] at h
          simp at h
        | none =>
          rw [runLoop_cons_ok sys v b rest out tr r1 hg hcd] at h
          have := ih _ _ _ _ h
          simp [this, List.flatMap_cons]
    · rw [runLoop_cons_fetchFail sys v b rest out tr (by simpa using hg)] at h
      simp at h

theorem runLoop_append_of_ok (sys : Sys) (pre : List (Name × Name)) :
    ∀ l out tr out1 tr1, runLoop sys pre out tr = (out1, tr1, none) →
      runLoop sys (pre ++ l) out tr = runLoop sys l out1 tr1 := by
  induction pre with
  | nil =>
    intro l out tr out1 tr1 h
    simp only [runLoop, Prod.mk.injEq] at h
    rw [List.nil_append, h.1, h.2.1]
  | cons p rest ih =>
    obtain ⟨v, b⟩ := p
    intro l out tr out1 tr1 h
    rw [List.cons_append]
    by_cases hg : sys.gitOk b
    · cases hcd : copyDirTop (sys.content b) (lookupA out v) with
      | mk r1 r2 =>
        cases r2 with
        | some e =>
          rw [runLoop_cons_copyFail sys v b rest out tr e r1 hg hcd] at h
          simp at h
        | none =>
          rw [runLoop_cons_ok sys v b rest out tr r1 hg hcd] at h
          rw [runLoop_cons_ok sys v b (rest ++ l) out tr r1 hg hcd]
          exact ih _ _ _ _ _ h
    · rw [runLoop_cons_fetchFail sys v b rest out tr (by simpa using hg)] at h
      simp at h

theorem runLoop_lookupA_not_mem (sys : Sys) (entries : List (Name × Name)) :
    ∀ out tr n, n ∉ entries.map Prod.fst →
      lookupA (runLoop sys entries out tr).1 n = lookupA out n := by
  induction entries with
  | nil => intro out tr n _; rfl
  | cons p rest ih =>
    obtain ⟨v, b⟩ := p
    intro out tr n hn
    rw [List.map_cons, List.mem_cons] at hn
    push_neg at hn
    have hstep : ∀ r1 : Option FSNode,
        lookupA (applyCopyResult out v r1) n = lookupA out n := by
      intro r1
      cases r1 with
      | some x => exact lookupA_insertA_ne out v n x hn.1
      | none => rfl
    by_cases hg : sys.gitOk b
    · cases hcd : copyDirTop (sys.content b) (lookupA out v) with
      | mk r1 r2 =>
        cases r2 with
        | some e =>
          rw [runLoop_cons_copyFail sys v b rest out tr e r1 hg hcd]
          exact hstep r1
        | none =>
          rw [runLoop_cons_ok sys v b rest out tr r1 hg hcd]
          rw [ih _ _ n hn.2]
          exact hstep r1
    · rw [runLoop_cons_fetchFail sys v b rest out tr (by simpa using hg)]

/-! ## Claims about the run driver: per-version operations and errors -/

/-- C8: on a successful run the trace is exactly one fetch followed by one
copy per entry of the resolved version map, in order; and the workspace
clone directory `<workspace>/repo/<version>` is injective in the version
name, so no two distinct versions share a workspace subdirectory. -/
theorem claim8_one_fetch_one_copy (sys : Sys) (latestBranch : Name)
    (branches : List Name) (debug : Bool) (out0 : Option (List (Name × FSNode)))
    (h : (run sys latestBranch branches debug out0).err = none) :
    (run sys latestBranch branches debug out0).trace =
      (mkVersionMap latestBranch branches).flatMap
        (fun p => [Event.fetch p.1 p.2, Event.copy p.1]) ∧
    ∀ tmpdir repoURL v1 b1 v2 b2,
      (fetchRepository tmpdir repoURL v1 b1).1 = (fetchRepository tmpdir repoURL v2 b2).1 →
        v1 = v2 := by
  constructor
  · by_cases hc : latestBranch = [] ∧ branches = []
    · obtain ⟨h1, h2⟩ := hc
      subst h1
      subst h2
      simp [run, mkVersionMap, parseBranchesFlag]
    · simp only [run, if_neg hc] at h ⊢
      cases hr : runLoop sys (mkVersionMap latestBranch branches) (out0.getD []) [] with
      | mk o rest2 =>
        obtain ⟨t2, e2⟩ := rest2
        rw [hr] at h
        have h2 : e2 = none := h
        subst h2
        have := runLoop_trace_of_ok sys (mkVersionMap latestBranch branches)
          (out0.getD []) [] o t2 hr
        simpa using this
  · intro tmpdir repoURL v1 b1 v2 b2 hf
    simp only [fetchRepository, cloneDirOf] at hf
    rw [List.append_assoc, List.append_assoc] at hf
    have h2 := List.append_cancel_left (List.append_cancel_left hf)
    simpa using h2

theorem claim8_witness :
    ((run ⟨fun _ => true, fun _ => some (FSNode.dir 0 [])⟩ ['m'] [] false none).trace =
      (mkVersionMap ['m'] []).flatMap (fun p => [Event.fetch p.1 p.2, Event.copy p.1])) ∧
    ∀ tmpdir repoURL v1 b1 v2 b2,
      (fetchRepository tmpdir repoURL v1 b1).1 = (fetchRepository tmpdir repoURL v2 b2).1 →
        v1 = v2 :=
  claim8_one_fetch_one_copy ⟨fun _ => true, fun _ => some (FSNode.dir 0 [])⟩ ['m'] [] false
    none
    (by simp [run, mkVersionMap, parseBranchesFlag, latestKey, runLoop, copyDirTop,
      copyDir, copyChildren, lookupA, insertA, applyCopyResult])

/-- C7 fails on the code as stated: when the copy step fails because the
cloned branch's content path exists but is a regular file, `copyDir` has
already created the destination directory (`os.MkdirAll` runs before
`ioutil.ReadDir`), so the failed version does get an output subdirectory:
here the run errors with `readDirNotDir` yet `<output-dir>/v` exists. -/
theorem claim7_counterexample :
    (run ⟨fun _ => true, fun _ => some (FSNode.file [] 0)⟩ [] [['v', '=', 'b']] false
        (some [])).err =
      some (RunErr.copyFailed CopyErr.readDirNotDir) ∧
    lookupA
        ((run ⟨fun _ => true, fun _ => some (FSNode.file [] 0)⟩ [] [['v', '=', 'b']] false
            (some [])).output.getD [])
        ['v'] =
      some (FSNode.dir 0 []) := by
  have hvm : mkVersionMap [] [['v', '=', 'b']] = [(['v'], ['b'])] := by decide
  have hcd :
      copyDirTop
          ((⟨fun _ => true, fun _ => some (FSNode.file [] 0)⟩ : Sys).content ['b'])
          (lookupA ([] : List (Name × FSNode)) ['v']) =
        (some (FSNode.dir 0 []), some CopyErr.readDirNotDir) := by
    simp [copyDirTop, copyDir, lookupA]
  have hloop :=
    runLoop_cons_copyFail ⟨fun _ => true, fun _ => some (FSNode.file [] 0)⟩ ['v'] ['b']
      [] [] [] CopyErr.readDirNotDir (some (FSNode.dir 0 [])) rfl hcd
  constructor <;>
    simp [run, hvm, hloop, applyCopyResult, insertA, lookupA]

/-- C7 (amended): the first fetch or copy error terminates the run
immediately — nothing after the failing step runs, and the error is
returned (non-zero exit status), with no retry. The output directory is
never rolled back: the subdirectories built for versions processed before
the failing step remain. A failed fetch leaves no output subdirectory for
the failed version; a failed copy can leave one (the destination directory
is created before the source is read), and at most the failed version's
subdirectory is affected. -/
theorem claim7_first_error (sys : Sys) (pre : List (Name × Name)) (v b : Name)
    (rest : List (Name × Name)) (out0 out1 : List (Name × FSNode)) (tr1 : List Event)
    (hpre : runLoop sys pre out0 [] = (out1, tr1, none)) :
    (sys.gitOk b = false →
      runLoop sys (pre ++ (v, b) :: rest) out0 [] =
        (out1, tr1 ++ [Event.fetch v b], some RunErr.fetchFailed) ∧
      (lookupA out0 v = none → v ∉ pre.map Prod.fst → lookupA out1 v = none)) ∧
    (∀ e r1, sys.gitOk b = true →
      copyDirTop (sys.content b) (lookupA out1 v) = (r1, some e) →
      runLoop sys (pre ++ (v, b) :: rest) out0 [] =
        (applyCopyResult out1 v r1,
          tr1 ++ [Event.fetch v b, Event.copy v], some (RunErr.copyFailed e)) ∧
      ∀ n, n ≠ v → lookupA (applyCopyResult out1 v r1) n = lookupA out1 n) := by
  have happ := runLoop_append_of_ok sys pre ((v, b) :: rest) out0 [] out1 tr1 hpre
  constructor
  · intro hg
    constructor
    · rw [happ]
      exact runLoop_cons_fetchFail sys v b rest out1 tr1 hg
    · intro h0 hnm
      have hfr := runLoop_lookupA_not_mem sys pre out0 [] v hnm
      rw [hpre] at hfr
      simpa [h0] using hfr
  · intro e r1 hg hcd
    constructor
    · rw [happ]
      exact runLoop_cons_copyFail sys v b rest out1 tr1 e r1 hg hcd
    · intro n hn
      cases r1 with
      | some x => exact lookupA_insertA_ne out1 v n x hn
      | none => rfl

theorem claim7_witness :
    (runLoop ⟨fun _ => false, fun _ => none⟩ (([] : List (Name × Name)) ++ (['v'], ['b']) :: [])
        [] [] =
      ([], [] ++ [Event.fetch ['v'] ['b']], some RunErr.fetchFailed)) ∧
    lookupA ([] : List (Name × FSNode)) ['v'] = none := by
  have h :=
    (claim7_first_error ⟨fun _ => false, fun _ => none⟩ [] ['v'] ['b'] [] [] [] [] rfl).1 rfl
  exact ⟨h.1, h.2 rfl (by simp)⟩

/-! ## Lemmas about the recursive copy -/

theorem sizeOf_pair_list_pos {β : Type} [SizeOf β] (l : List (Name × β)) :
    1 ≤ sizeOf l := by
  cases l <;> simp_arith

theorem goodTree_dir_nodup (m : Nat) (cs : List (Name × FSNode))
    (h : goodTree (FSNode.dir m cs) = true) : (cs.map Prod.fst).Nodup := by
  simp only [goodTree, Bool.and_eq_true, decide_eq_true_eq] at h
  exact h.1

theorem goodTree_dir_forest (m : Nat) (cs : List (Name × FSNode))
    (h : goodTree (FSNode.dir m cs) = true) : goodForest cs = true := by
  simp only [goodTree, Bool.and_eq_true] at h
  exact h.2

theorem goodForest_lookupA (cs : List (Name × FSNode)) (n : Name) (t : FSNode)
    (hg : goodForest cs = true) (h : lookupA cs n = some t) : goodTree t = true := by
  induction cs with
  | nil => exact Option.noConfusion h
  | cons p rest ih =>
    obtain ⟨k, v⟩ := p
    simp only [goodForest, Bool.and_eq_true] at hg
    by_cases hk : k = n
    · rw [lookupA, if_pos hk] at h
      rw [← Option.some.inj h]
      exact hg.1
    · rw [lookupA, if_neg hk] at h
      exact ih hg.2 h

theorem copyChildren_cons_err (n : Name) (child : FSNode) (rest acc : List (Name × FSNode))
    (r1 : FSNode) (e : CopyErr) (h : copyEntry child (lookupA acc n) = (r1, some e)) :
    copyChildren ((n, child) :: rest) acc = (insertA acc n r1, some e) := by
  cases child with
  | file c fm =>
    simp only [copyEntry] at h
    simp only [copyChildren, h]
  | dir m cs =>
    simp only [copyEntry] at h
    simp only [copyChildren, h]

theorem copyChildren_cons_ok (n : Name) (child : FSNode) (rest acc : List (Name × FSNode))
    (r1 : FSNode) (h : copyEntry child (lookupA acc n) = (r1, none)) :
    copyChildren ((n, child) :: rest) acc = copyChildren rest (insertA acc n r1) := by
  cases child with
  | file c fm =>
    simp only [copyEntry] at h
    simp only [copyChildren, h]
  | dir m cs =>
    simp only [copyEntry] at h
    simp only [copyChildren, h]

theorem copyDir_dir_none (m : Nat) (cs : List (Name × FSNode)) :
    copyDir (FSNode.dir m cs) none =
      (FSNode.dir m (copyChildren cs []).1, (copyChildren cs []).2) := by
  simp [copyDir]

theorem copyDir_dir_dir (m dm : Nat) (cs dcs : List (Name × FSNode)) :
    copyDir (FSNode.dir m cs) (some (FSNode.dir dm dcs)) =
      (FSNode.dir dm (copyChildren cs dcs).1, (copyChildren cs dcs).2) := by
  simp [copyDir]

theorem copyChildren_fresh (k : Nat) :
    ∀ cs acc : List (Name × FSNode), sizeOf cs ≤ k →
      (cs.map Prod.fst).Nodup → goodForest cs = true →
      (∀ n, n ∈ cs.map Prod.fst → lookupA acc n = none) →
      copyChildren cs acc = (acc ++ cs, none) := by
  induction k with
  | zero =>
    intro cs acc hsz
    exact absurd hsz (by have := sizeOf_pair_list_pos cs; omega)
  | succ k ih =>
    intro cs acc hsz hnd hgf hfresh
    cases cs with
    | nil => simp [copyChildren]
    | cons p rest =>
      obtain ⟨n, child⟩ := p
      have hlk : lookupA acc n = none :=
        hfresh n (by rw [List.map_cons]; exact List.mem_cons_self _ _)
      rw [List.map_cons, List.nodup_cons] at hnd
      simp only [goodForest, Bool.and_eq_true] at hgf
      simp only [List.cons.sizeOf_spec, Prod.mk.sizeOf_spec] at hsz
      have hchildpos : 1 ≤ sizeOf child := by cases child <;> simp_arith
      have hcE : copyEntry child (lookupA acc n) = (child, none) := by
        rw [hlk]
        cases child with
        | file c fm => simp [copyEntry, copyFile]
        | dir m2 cs2 =>
          simp only [copyEntry]
          rw [copyDir_dir_none]
          have hsz2 : sizeOf cs2 ≤ k := by
            simp only [FSNode.dir.sizeOf_spec] at hsz
            have := sizeOf_pair_list_pos rest
            omega
          have hrec := ih cs2 [] hsz2
            (goodTree_dir_nodup m2 cs2 hgf.1) (goodTree_dir_forest m2 cs2 hgf.1)
            (fun _ _ => rfl)
          rw [hrec]
          simp
      rw [copyChildren_cons_ok n child rest acc child hcE]
      rw [insertA_of_lookupA_none acc n child hlk]
      have hsz3 : sizeOf rest ≤ k := by omega
      have hfresh2 : ∀ n2, n2 ∈ rest.map Prod.fst →
          lookupA (acc ++ [(n, child)]) n2 = none := by
        intro n2 hn2
        have hne : ¬n = n2 := fun hh => hnd.1 (hh ▸ hn2)
        rw [lookupA_append_of_none acc [(n, child)] n2
          (hfresh n2 (by rw [List.map_cons]; exact List.mem_cons_of_mem _ hn2))]
        simp [lookupA, hne]
      rw [ih rest (acc ++ [(n, child)]) hsz3 hnd.2 hgf.2 hfresh2]
      simp

theorem copyDir_fresh (m : Nat) (cs : List (Name × FSNode))
    (h : goodTree (FSNode.dir m cs) = true) :
    copyDir (FSNode.dir m cs) none = (FSNode.dir m cs, none) := by
  rw [copyDir_dir_none]
  rw [copyChildren_fresh (sizeOf cs) cs [] le_rfl
    (goodTree_dir_nodup m cs h) (goodTree_dir_forest m cs h) (fun _ _ => rfl)]
  simp

theorem copyChildren_lookupA_spec (k : Nat) :
    ∀ cs acc out : List (Name × FSNode), sizeOf cs ≤ k →
      copyChildren cs acc = (out, none) →
      ∀ n,
        (lookupA cs n = none → lookupA out n = lookupA acc n) ∧
        ((cs.map Prod.fst).Nodup → ∀ child, lookupA cs n = some child →
          ∃ r, copyEntry child (lookupA acc n) = (r, none) ∧ lookupA out n = some r) := by
  induction k with
  | zero =>
    intro cs acc out hsz
    exact absurd hsz (by have := sizeOf_pair_list_pos cs; omega)
  | succ k ih =>
    intro cs acc out hsz hcc n
    cases cs with
    | nil =>
      simp only [copyChildren, Prod.mk.injEq] at hcc
      constructor
      · intro _
        rw [← hcc.1]
      · intro _ child hch
        exact Option.noConfusion hch
    | cons p rest =>
      obtain ⟨m2, child0⟩ := p
      simp only [List.cons.sizeOf_spec, Prod.mk.sizeOf_spec] at hsz
      have hchildpos : 1 ≤ sizeOf child0 := by cases child0 <;> simp_arith
      have hsz3 : sizeOf rest ≤ k := by omega
      cases hE : copyEntry child0 (lookupA acc m2) with
      | mk r1 r2 =>
        cases r2 with
        | some e =>
          rw [copyChildren_cons_err m2 child0 rest acc r1 e hE] at hcc
          simp at hcc
        | none =>
          rw [copyChildren_cons_ok m2 child0 rest acc r1 hE] at hcc
          have ihr := ih rest (insertA acc m2 r1) out hsz3 hcc
          by_cases hnm : m2 = n
          · subst hnm
            constructor
            · intro hnone
              rw [lookupA, if_pos rfl] at hnone
              exact Option.noConfusion hnone
            · intro hnd child hch
              rw [lookupA, if_pos rfl] at hch
              rw [← Option.some.inj hch]
              refine ⟨r1, hE, ?_⟩
              rw [List.map_cons, List.nodup_cons] at hnd
              have hrest_none : lookupA rest m2 = none :=
                lookupA_none_of_not_mem rest m2 hnd.1
              rw [(ihr m2).1 hrest_none, lookupA_insertA_self]
          · have hne : n ≠ m2 := fun hh => hnm hh.symm
            constructor
            · intro hnone
              rw [lookupA, if_neg hnm] at hnone
              rw [(ihr n).1 hnone, lookupA_insertA_ne acc m2 n r1 hne]
            · intro hnd child hch
              rw [lookupA, if_neg hnm] at hch
              rw [List.map_cons, List.nodup_cons] at hnd
              obtain ⟨r, hre, hout⟩ := (ihr n).2 hnd.2 child hch
              rw [lookupA_insertA_ne acc m2 n r1 hne] at hre
              exact ⟨r, hre, hout⟩

theorem lookupPath_dir_cons (m : Nat) (cs : List (Name × FSNode)) (n : Name)
    (rest : List Name) (t : FSNode) (h : lookupA cs n = some t) :
    lookupPath (FSNode.dir m cs) (n :: rest) = lookupPath t rest := by
  simp [lookupPath, h]

theorem lookupPath_dir_cons_none (m : Nat) (cs : List (Name × FSNode)) (n : Name)
    (rest : List Name) (h : lookupA cs n = none) :
    lookupPath (FSNode.dir m cs) (n :: rest) = none := by
  simp [lookupPath, h]

theorem copyDir_lookupPath_spec (p : List Name) :
    ∀ (src : FSNode) (dst : Option FSNode) (out : FSNode),
      goodTree src = true → copyDir src dst = (out, none) →
      ∀ (c : List Nat) (fm : Nat),
        (lookupPath src p = none →
          dst.bind (fun d => lookupPath d p) = some (FSNode.file c fm) →
          lookupPath out p = some (FSNode.file c fm)) ∧
        (lookupPath src p = some (FSNode.file c fm) →
          lookupPath out p = some (FSNode.file c fm)) := by
  induction p with
  | nil =>
    intro src dst out hg h c fm
    constructor
    · intro h1 h2
      simp [lookupPath] at h1
    · intro h1
      simp only [lookupPath, Option.some.injEq] at h1
      subst h1
      cases dst with
      | none => simp [copyDir] at h
      | some d => cases d <;> simp [copyDir] at h
  | cons n rest ih =>
    intro src dst out hg h c fm
    cases src with
    | file c0 m0 =>
      cases dst with
      | none => simp [copyDir] at h
      | some d => cases d <;> simp [copyDir] at h
    | dir m cs =>
      cases dst with
      | none =>
        have hid := copyDir_fresh m cs hg
        rw [hid] at h
        simp only [Prod.mk.injEq] at h
        rw [← h.1]
        constructor
        · intro h1 h2
          exact Option.noConfusion h2
        · intro h1
          exact h1
      | some d =>
        cases d with
        | file c1 fm1 => simp [copyDir] at h
        | dir dm dcs =>
          rw [copyDir_dir_dir] at h
          simp only [Prod.mk.injEq] at h
          have hcc2 : copyChildren cs dcs = ((copyChildren cs dcs).1, none) := by
            have hee : (copyChildren cs dcs).2 = none := h.2
            exact Prod.ext rfl hee
          have hspec := copyChildren_lookupA_spec (sizeOf cs) cs dcs
            (copyChildren cs dcs).1 le_rfl hcc2
          rw [← h.1]
          have hnd := goodTree_dir_nodup m cs hg
          have hforest := goodTree_dir_forest m cs hg
          constructor
          · intro h1 h2
            simp only [Option.some_bind] at h2
            cases hdn : lookupA dcs n with
            | none =>
              rw [lookupPath_dir_cons_none dm dcs n rest hdn] at h2
              exact Option.noConfusion h2
            | some dchild =>
              rw [lookupPath_dir_cons dm dcs n rest dchild hdn] at h2
              cases hcs : lookupA cs n with
              | none =>
                have hfr := (hspec n).1 hcs
                rw [hdn] at hfr
                rw [lookupPath_dir_cons dm (copyChildren cs dcs).1 n rest dchild hfr]
                exact h2
              | some child =>
                rw [lookupPath_dir_cons m cs n rest child hcs] at h1
                obtain ⟨r, hre, hout⟩ := (hspec n).2 hnd child hcs
                rw [lookupPath_dir_cons dm (copyChildren cs dcs).1 n rest r hout]
                rw [hdn] at hre
                cases child with
                | file c2 fm2 =>
                  cases dchild with
                  | dir d2 dcs2 => simp [copyEntry, copyFile] at hre
                  | file c3 fm3 =>
                    cases rest with
                    | nil => exact Option.noConfusion h1
                    | cons q qs => exact Option.noConfusion h2
                | dir m2 cs2 =>
                  simp only [copyEntry] at hre
                  cases dchild with
                  | file c3 fm3 => simp [copyDir] at hre
                  | dir dm2 dcs2 =>
                    have hgchild : goodTree (FSNode.dir m2 cs2) = true :=
                      goodForest_lookupA cs n _ hforest hcs
                    exact (ih (FSNode.dir m2 cs2) (some (FSNode.dir dm2 dcs2)) r
                      hgchild hre c fm).1 h1 (by simpa using h2)
          · intro h1
            cases hcs : lookupA cs n with
            | none =>
              rw [lookupPath_dir_cons_none m cs n rest hcs] at h1
              exact Option.noConfusion h1
            | some child =>
              rw [lookupPath_dir_cons m cs n rest child hcs] at h1
              obtain ⟨r, hre, hout⟩ := (hspec n).2 hnd child hcs
              rw [lookupPath_dir_cons dm (copyChildren cs dcs).1 n rest r hout]
              cases child with
              | file c2 fm2 =>
                cases rest with
                | cons q qs => exact Option.noConfusion h1
                | nil =>
                  simp only [copyEntry] at hre
                  cases hdn : lookupA dcs n with
                  | none =>
                    rw [hdn] at hre
                    simp only [copyFile, Prod.mk.injEq] at hre
                    rw [← hre.1]
                    exact h1
                  | some dchild =>
                    rw [hdn] at hre
                    cases dchild with
                    | dir d2 dcs2 => simp [copyFile] at hre
                    | file c3 fm3 =>
                      simp only [copyFile, Prod.mk.injEq] at hre
                      rw [← hre.1]
                      exact h1
              | dir m2 cs2 =>
                have hgchild : goodTree (FSNode.dir m2 cs2) = true :=
                  goodForest_lookupA cs n _ hforest hcs
                simp only [copyEntry] at hre
                cases hdn : lookupA dcs n with
                | none =>
                  rw [hdn] at hre
                  rw [copyDir_fresh m2 cs2 hgchild] at hre
                  simp only [Prod.mk.injEq] at hre
                  rw [← hre.1]
                  exact h1
                | some dchild =>
                  rw [hdn] at hre
                  cases dchild with
                  | file c3 fm3 => simp [copyDir] at hre
                  | dir dm2 dcs2 =>
                    exact (ih (FSNode.dir m2 cs2) (some (FSNode.dir dm2 dcs2)) r
                      hgchild hre c fm).2 h1

/-! ## Claims about the recursive copy -/

/-- C3: copying a well-formed source directory tree (nested subdirectories
and regular files, distinct names per directory) to an absent destination
reproduces the source exactly — the full tree structure, every file's
bytes, and the permission bits of every copied file and created directory
(the result equals the source tree, node for node). The traversal is the
depth-first pre-order loop of `copyDir`/`copyChildren`. -/
theorem claim3_copy_reproduces (m : Nat) (cs : List (Name × FSNode))
    (h : goodTree (FSNode.dir m cs) = true) :
    copyDir (FSNode.dir m cs) none = (FSNode.dir m cs, none) :=
  copyDir_fresh m cs h

theorem claim3_witness :
    goodTree (FSNode.dir 7 [(['a'], FSNode.file [1, 2] 6),
        (['d'], FSNode.dir 5 [(['b'], FSNode.file [3] 4)])]) = true ∧
    copyDir (FSNode.dir 7 [(['a'], FSNode.file [1, 2] 6),
        (['d'], FSNode.dir 5 [(['b'], FSNode.file [3] 4)])]) none =
      (FSNode.dir 7 [(['a'], FSNode.file [1, 2] 6),
        (['d'], FSNode.dir 5 [(['b'], FSNode.file [3] 4)])], none) :=
  ⟨by simp [goodTree, goodForest],
    claim3_copy_reproduces 7
      [(['a'], FSNode.file [1, 2] 6), (['d'], FSNode.dir 5 [(['b'], FSNode.file [3] 4)])]
      (by simp [goodTree, goodForest])⟩

/-- C6: a successful recursive copy into an existing destination directory
leaves every destination file whose relative path does not exist in the
source untouched, and makes every relative path that is a file in the
source hold exactly the source's file (bytes and mode) — silently
overwriting whatever the destination held there before. -/
theorem claim6_frame_overwrite (src dst out : FSNode) (hg : goodTree src = true)
    (h : copyDir src (some dst) = (out, none)) (p : List Name) (c : List Nat) (fm : Nat) :
    (lookupPath src p = none → lookupPath dst p = some (FSNode.file c fm) →
      lookupPath out p = some (FSNode.file c fm)) ∧
    (lookupPath src p = some (FSNode.file c fm) →
      lookupPath out p = some (FSNode.file c fm)) := by
  have hspec := copyDir_lookupPath_spec p src (some dst) out hg h c fm
  simpa using hspec

theorem claim6_witness :
    (lookupPath (FSNode.dir 5 [(['a'], FSNode.file [9] 6), (['z'], FSNode.file [3] 4)])
        [['z']] =
      some (FSNode.file [3] 4)) ∧
    (lookupPath (FSNode.dir 5 [(['a'], FSNode.file [9] 6), (['z'], FSNode.file [3] 4)])
        [['a']] =
      some (FSNode.file [9] 6)) := by
  have h6 := claim6_frame_overwrite
    (FSNode.dir 7 [(['a'], FSNode.file [9] 6)])
    (FSNode.dir 5 [(['a'], FSNode.file [1] 2), (['z'], FSNode.file [3] 4)])
    (FSNode.dir 5 [(['a'], FSNode.file [9] 6), (['z'], FSNode.file [3] 4)])
    (by simp [goodTree, goodForest])
    (by simp [copyDir, copyChildren, copyFile, lookupA, insertA])
  exact ⟨(h6 [['z']] [3] 4).1 rfl rfl, (h6 [['a']] [9] 6).2 rfl⟩

end HugoMV
